import Mathlib

/-!
Verification of the GenomicDataLake ingestion/validation/dedup/upload pipeline
(`genomic_data_upload.py`).

The Python functions are shallowly embedded as executable Lean definitions:

* a pandas cell value is a `Value` (None/NaN, string, int, float-as-rational,
  timestamp); Python floats are modelled as rationals, which is exact on every
  value these claims exercise;
* a record (one DataFrame row) is an ordered association list of
  (column name, value) pairs;
* the MD5 digest of `str(sorted(row.items()))` is modelled as the sorted
  item list itself: MD5 is a fixed deterministic function of that
  serialization, so equal serializations give equal digests, and distinct
  serializations are assumed to give distinct digests (the spec requires
  collision probability to be negligible);
* the destination database table is a list of `StoreRow`s; `to_sql(...,
  if_exists='append')` is list append; the random sample drawn by
  `DataFrame.sample` in `verify_upload` is an explicitly quantified
  parameter (a list of row indices), so theorems about verification hold
  for every possible sample.
-/

namespace GenomicDataLake

/-- A Python/pandas cell value.  `nullV` models both `None` and float NaN
(everything `pd.isna` recognises); `rat` models a Python float by an exact
rational; `time` models a `pandas.Timestamp` (only its identity matters). -/
inductive Value where
  | nullV : Value
  | str (s : String) : Value
  | int (n : Int) : Value
  | rat (q : ℚ) : Value
  | time (t : Nat) : Value
deriving DecidableEq, Repr

/-- A record: one DataFrame row as an ordered (column name, value) list. -/
abbrev Rec := List (String × Value)

/-- Injective key embedding a `Value` into a lexicographically ordered type;
used to give `Value` the total order that `sorted` needs.  Python only ever
compares the second tuple components when two column names are equal, which
never happens for DataFrame rows (unique column names), so any total order
on `Value` yields a faithful model of `sorted(row.items())`. -/
def Value.key : Value → ℕ ×ₗ (ℚ ×ₗ List Char)
  | .nullV => toLex (0, toLex ((0 : ℚ), []))
  | .int n => toLex (1, toLex ((n : ℚ), []))
  | .rat q => toLex (2, toLex (q, []))
  | .str s => toLex (3, toLex ((0 : ℚ), s.toList))
  | .time t => toLex (4, toLex ((t : ℚ), []))

theorem Value.key_injective : Function.Injective Value.key := by
  intro a b h
  cases a <;> cases b <;>
    simp only [Value.key, toLex_inj, Prod.mk.injEq] at h <;>
    simp_all
  exact String.ext h

/-- Key for one (column name, value) item: order by name, then by value. -/
def itemKey (p : String × Value) : List Char ×ₗ (ℕ ×ₗ (ℚ ×ₗ List Char)) :=
  toLex (p.1.toList, p.2.key)

theorem itemKey_injective : Function.Injective itemKey := by
  intro p q h
  simp only [itemKey, toLex_inj, Prod.mk.injEq] at h
  exact Prod.ext (String.ext h.1) (Value.key_injective h.2)

/-- The comparison `sorted` uses on the (name, value) items of a row. -/
def ItemLe (p q : String × Value) : Prop := itemKey p ≤ itemKey q

instance : DecidableRel ItemLe := fun p q =>
  inferInstanceAs (Decidable (itemKey p ≤ itemKey q))

instance : IsTotal (String × Value) ItemLe :=
  ⟨fun p q => le_total (itemKey p) (itemKey q)⟩

instance : IsTrans (String × Value) ItemLe :=
  ⟨fun _ _ _ h h' => le_trans h h'⟩

instance : IsAntisymm (String × Value) ItemLe :=
  ⟨fun _ _ h h' => itemKey_injective (le_antisymm h h')⟩

/-- Model of Python's `sorted` on the items of a row. -/
def sortItems (l : List (String × Value)) : List (String × Value) :=
  List.insertionSort ItemLe l

theorem sortItems_perm (l : List (String × Value)) : (sortItems l).Perm l :=
  List.perm_insertionSort ItemLe l

theorem sortItems_sorted (l : List (String × Value)) :
    List.Sorted ItemLe (sortItems l) :=
  List.sorted_insertionSort ItemLe l

/-- Permuted item lists sort to the same canonical list. -/
theorem sortItems_eq_of_perm {l₁ l₂ : List (String × Value)} (h : l₁.Perm l₂) :
    sortItems l₁ = sortItems l₂ :=
  List.eq_of_perm_of_sorted
    ((sortItems_perm l₁).trans (h.trans (sortItems_perm l₂).symm))
    (sortItems_sorted l₁) (sortItems_sorted l₂)

/-- Two item lists sort identically exactly when one permutes the other. -/
theorem sortItems_eq_iff_perm (l₁ l₂ : List (String × Value)) :
    sortItems l₁ = sortItems l₂ ↔ l₁.Perm l₂ := by
  constructor
  · intro h
    exact ((sortItems_perm l₁).symm.trans (h ▸ sortItems_perm l₂ : (sortItems l₁).Perm l₂))
  · exact sortItems_eq_of_perm

/-- Source `generate_record_hash(row)`: the digest of
`str(sorted(row.items()))`, modelled by the canonical sorted item list
(see the file header for why this models the MD5 hex digest). -/
def generate_record_hash (row : Rec) : List (String × Value) :=
  sortItems row

/-- The hash a record receives in `validate_and_clean_data`: the
`upload_timestamp` column is attached (pandas appends new columns at the
end) before `generate_record_hash` is applied; the `record_hash` column
itself does not yet exist at that point. -/
def hashAt (t : Nat) (r : Rec) : List (String × Value) :=
  generate_record_hash (r ++ [("upload_timestamp", Value.time t)])

theorem hashAt_eq_iff (t : Nat) (a b : Rec) : hashAt t a = hashAt t b ↔ a.Perm b := by
  unfold hashAt generate_record_hash
  rw [sortItems_eq_iff_perm]
  constructor
  · intro h
    have ha := (List.perm_append_singleton _ a).symm.trans
      (h.trans (List.perm_append_singleton _ b))
    exact ha.cons_inv
  · intro h
    exact h.append_right _

/-- ASCII uppercase conversion of one character (all column names and the
values the claims exercise are ASCII, where this agrees with Python's
`str.upper`). -/
def charUpper (c : Char) : Char :=
  if c.isLower then Char.ofNat (c.toNat - 32) else c

/-- ASCII lowercase conversion of one character (model of `str.lower`). -/
def charLower (c : Char) : Char :=
  if c.isUpper then Char.ofNat (c.toNat + 32) else c

/-- Model of Python `s.upper()`. -/
def strUpper (s : String) : String :=
  ⟨s.toList.map charUpper⟩

/-- Model of Python `s.lower()`. -/
def strLower (s : String) : String :=
  ⟨s.toList.map charLower⟩

/-- Model of Python `s.strip()`: whitespace removed from both ends. -/
def pyTrim (s : String) : String :=
  ⟨((s.toList.dropWhile Char.isWhitespace).reverse.dropWhile Char.isWhitespace).reverse⟩

/-- Left-to-right, non-overlapping removal of every occurrence of "CHR",
i.e. `s.replace('CHR', '')` applied to an already-uppercased string. -/
def stripCHRall : List Char → List Char
  | 'C' :: 'H' :: 'R' :: rest => stripCHRall rest
  | c :: rest => c :: stripCHRall rest
  | [] => []

/-- Model of `s.replace('CHR', '')`. -/
def removeCHR (s : String) : String :=
  ⟨stripCHRall s.toList⟩

/-- Does `needle` occur at the start of `hay`? -/
def isPrefOf : List Char → List Char → Bool
  | [], _ => true
  | _ :: _, [] => false
  | a :: as, b :: bs => a == b && isPrefOf as bs

/-- Does `needle` occur anywhere inside `hay`? -/
def containsSub (needle : List Char) : List Char → Bool
  | [] => needle.isEmpty
  | c :: t => isPrefOf needle (c :: t) || containsSub needle t

/-- Python's `sub in hay` on strings. -/
def strContains (hay sub : String) : Bool :=
  containsSub sub.toList hay.toList

/-- The Python type a field rule requires (`int`, `float` or `str`). -/
inductive PyTy where
  | pint : PyTy
  | pfloat : PyTy
  | pstr : PyTy
deriving DecidableEq, Repr

/-- The three regular expressions occurring in `get_table_schema`, as a
closed enumeration; `matchB` hand-compiles each one (all are anchored
full-string matches under `re.match` with a final dollar). -/
inductive Pat where
  | alnumUnd : Pat
  | chromP : Pat
  | acgt : Pat
deriving DecidableEq, Repr

/-- The literal regex text, used in the rejection message. -/
def Pat.src : Pat → String
  | .alnumUnd => "^[A-Za-z0-9\\-_]+$"
  | .chromP => "^(chr)?\\d+$|^(chr)?[XY]$"
  | .acgt => "^[ACGT]+$"

/-- Drop one literal lowercase "chr" at the front, if present. -/
def stripChr : List Char → List Char
  | 'c' :: 'h' :: 'r' :: rest => rest
  | cs => cs

/-- Decision procedure for each schema regex. `re.match(p, s)` with these
anchored patterns succeeds exactly on these strings. -/
def Pat.matchB : Pat → String → Bool
  | .alnumUnd, s =>
      !s.isEmpty && s.toList.all (fun c => c.isAlpha || c.isDigit || c == '-' || c == '_')
  | .chromP, s =>
      let b := stripChr s.toList
      (!b.isEmpty && b.all Char.isDigit) || b == ['X'] || b == ['Y']
  | .acgt, s =>
      !s.isEmpty && s.toList.all (fun c => c == 'A' || c == 'C' || c == 'G' || c == 'T')

/-- One field rule of `get_table_schema`: expected Python type, whether the
field is required, optional pattern, optional inclusive numeric bounds. -/
structure FieldRule where
  ty : PyTy
  required : Bool
  pt : Option Pat
  minB : Option ℚ
  maxB : Option ℚ
deriving DecidableEq, Repr

/-- Source `get_table_schema(table_type)`: the statically registered field
rules; an unregistered (or absent) table type yields the empty schema. -/
def get_table_schema : Option String → List (String × FieldRule)
  | some "tmb" =>
      [("SampleName", ⟨.pstr, true, some .alnumUnd, none, none⟩),
       ("TMB", ⟨.pfloat, true, none, some 0, none⟩),
       ("BinomialLow", ⟨.pfloat, true, none, some 0, some 1⟩),
       ("BinomialHigh", ⟨.pfloat, true, none, some 0, some 1⟩)]
  | some "cns" =>
      [("CHROM", ⟨.pstr, true, some .chromP, none, none⟩),
       ("START", ⟨.pint, true, none, some 0, none⟩),
       ("STOP", ⟨.pint, true, none, some 0, none⟩),
       ("GENE", ⟨.pstr, true, some .alnumUnd, none, none⟩),
       ("log2", ⟨.pfloat, true, none, none, none⟩),
       ("SampleName", ⟨.pstr, true, some .alnumUnd, none, none⟩)]
  | some "mean_gene_coverage" =>
      [("SampleName", ⟨.pstr, true, some .alnumUnd, none, none⟩),
       ("GENE", ⟨.pstr, true, some .alnumUnd, none, none⟩),
       ("MEAN_COVERAGE", ⟨.pfloat, true, none, some 0, none⟩)]
  | some "mastervar" =>
      [("SampleName", ⟨.pstr, true, some .alnumUnd, none, none⟩),
       ("CHROM", ⟨.pstr, true, some .chromP, none, none⟩),
       ("POS", ⟨.pint, true, none, some 0, none⟩),
       ("REF", ⟨.pstr, true, some .acgt, none, none⟩),
       ("ALT", ⟨.pstr, true, some .acgt, none, none⟩),
       ("AF", ⟨.pfloat, true, none, some 0, some 1⟩)]
  | _ => []

/-- Table-type inference in `validate_and_clean_data`: the first of the four
registered type names that occurs as a substring of the lowercased table
name. -/
def tableType (tableName : String) : Option String :=
  ["tmb", "cns", "mean_gene_coverage", "mastervar"].find?
    (fun t => strContains (strLower tableName) t)

/-- Python `str(value)` on the modelled values.  Claims never depend on the
rendering of a float or timestamp (those renderings are placeholders). -/
def pyStr : Value → String
  | .str s => s
  | .int n => toString n
  | .rat q => toString q
  | .nullV => "None"
  | .time t => "Timestamp-" ++ toString t

/-- Numeric value of a digit list, all of whose characters are digits. -/
def natOfDigits (cs : List Char) : Nat :=
  cs.foldl (fun a c => a * 10 + (c.toNat - 48)) 0

/-- Model of Python `float(s)` on a string: optional surrounding
whitespace, optional sign, decimal digits with an optional single point
("1", "1.", ".5", "-2.25", ...).  Exotic accepted forms (exponents,
"inf"/"nan", underscores) are outside the modelled input range; no claim
exercises them. -/
def parseRat (s : String) : Option ℚ :=
  let t := (pyTrim s).toList
  let sb : Int × List Char :=
    match t with
    | '-' :: rest => (-1, rest)
    | '+' :: rest => (1, rest)
    | _ => (1, t)
  let ip := sb.2.takeWhile (fun c => c != '.')
  let rest := sb.2.dropWhile (fun c => c != '.')
  match rest with
  | [] =>
      if !ip.isEmpty && ip.all Char.isDigit then
        some ((sb.1 * (natOfDigits ip : Int) : Int) : ℚ)
      else none
  | _ :: fp =>
      if ip.all Char.isDigit && fp.all Char.isDigit && (!ip.isEmpty || !fp.isEmpty) then
        some (mkRat (sb.1 * (natOfDigits ip * 10 ^ fp.length + natOfDigits fp : Nat))
          (10 ^ fp.length))
      else none

/-- Python `float(value)`: ints and floats pass through; strings are
parsed; `None` and timestamps raise `TypeError`, which the caller turns
into `None` (hence `none` here). -/
def toFloatQ : Value → Option ℚ
  | .int n => some (n : ℚ)
  | .rat q => some q
  | .str s => parseRat s
  | .nullV => none
  | .time _ => none

/-- Python `int(q)` for an exact float value: truncation toward zero. -/
def truncQ (q : ℚ) : Int :=
  Int.tdiv q.num (q.den : Int)

/-- Source `standardize_value(value, column_name, schema)`.  `none` models
Python `None` (returned for `pd.isna` input and for coercion failures that
raise `ValueError`/`TypeError`).  Mirrors the source exactly: the CHROM
branch fires whenever the literal substring "CHROM" occurs in the column
name, uppercases the whole value, removes every occurrence of "CHR", and
maps the results "X"/"Y" to "23"/"24". -/
def standardize_value (v : Value) (columnName : String) (rule : FieldRule) : Option Value :=
  if v = .nullV then none
  else if strContains columnName "CHROM" then
    let s := removeCHR (strUpper (pyStr v))
    if s = "X" then some (.str "23")
    else if s = "Y" then some (.str "24")
    else some (.str s)
  else
    match rule.ty with
    | .pfloat => (toFloatQ v).map Value.rat
    | .pint => (toFloatQ v).map (fun q => Value.int (truncQ q))
    | .pstr => some (.str (pyTrim (pyStr v)))

/-- `isinstance` type of a standardized value (`None` and timestamps are
none of `int`/`float`/`str`). -/
def vty : Value → Option PyTy
  | .int _ => some .pint
  | .rat _ => some .pfloat
  | .str _ => some .pstr
  | .nullV => none
  | .time _ => none

/-- String payload; only consulted after the `isinstance(_, str)` check. -/
def asStr : Value → String
  | .str s => s
  | _ => ""

/-- Numeric payload; only consulted after the `isinstance` int/float check. -/
def numQ : Value → ℚ
  | .int n => (n : ℚ)
  | .rat q => q
  | _ => 0

/-- Rendering of a schema bound inside an f-string; every bound in the
registered schemas is the integer 0 or 1, rendered like Python does. -/
def ratStr (q : ℚ) : String :=
  if q.den = 1 then toString q.num else toString q

/-- Dictionary lookup `schema[col]` (with `col in schema` as `isSome`). -/
def lookupRule (schema : List (String × FieldRule)) (col : String) : Option FieldRule :=
  (schema.find? (fun p => p.1 == col)).map Prod.snd

/-- One iteration of the per-column loop of `validate_and_clean_data`:
returns the standardized cell (`std_val`, with Python `None` stored as
`nullV`) and the violation messages this column contributes, mirroring the
source's required/type/pattern/min/max cascade. -/
def checkField (schema : List (String × FieldRule)) (col : String) (v : Value) :
    Value × List String :=
  match lookupRule schema col with
  | none => (v, [])
  | some rule =>
    let std := standardize_value v col rule
    let msgs :=
      if rule.required && std.isNone then [col ++ ": Required field is null"]
      else
        match std with
        | none => []
        | some sv =>
          if vty sv ≠ some rule.ty then [col ++ ": Invalid type"]
          else
            match rule.ty, rule.pt with
            | .pstr, some p =>
                if !p.matchB (asStr sv) then
                  [col ++ ": Does not match pattern " ++ p.src]
                else []
            | .pstr, none => []
            | _, _ =>
                (match rule.minB with
                 | some m =>
                     if numQ sv < m then [col ++ ": Below minimum value " ++ ratStr m]
                     else []
                 | none => []) ++
                (match rule.maxB with
                 | some m =>
                     if m < numQ sv then [col ++ ": Above maximum value " ++ ratStr m]
                     else []
                 | none => [])
    (std.getD .nullV, msgs)

/-- The whole per-row loop: standardized row plus violation messages, in
column order. -/
def validateRow (schema : List (String × FieldRule)) : Rec → Rec × List String
  | [] => ([], [])
  | (c, v) :: rest =>
    let cf := checkField schema c v
    let rm := validateRow schema rest
    ((c, cf.1) :: rm.1, cf.2 ++ rm.2)

/-- A cleaned DataFrame row: the (possibly standardized) data columns plus
the two metadata columns `validate_and_clean_data` attaches.  pandas always
appends those two columns last, so representing them as named components is
lossless. -/
structure CRow where
  fields : Rec
  ts : Nat
  rhash : List (String × Value)
deriving DecidableEq, Repr

/-- One entry of the dropped-records DataFrame: the original `index` (absent
for duplicate rows, which pandas fills with NaN after `concat`), the
`reason` string, and the dropped row itself. -/
structure RejRow where
  idx : Option Nat
  reason : String
  row : CRow
deriving DecidableEq, Repr

/-- The validation pass of `validate_and_clean_data` over the enumerated
rows (after the metadata columns were attached): rows with no violation go
to `cleaned_rows` (standardized), the rest to `dropped_records` with the
joined reason string and the original row. -/
def valStage (schema : List (String × FieldRule)) (t : Nat) :
    List (Nat × Rec) → List CRow × List RejRow
  | [] => ([], [])
  | (i, r) :: rest =>
    let vr := validateRow schema r
    let acc := valStage schema t rest
    if vr.2 = [] then (⟨vr.1, t, hashAt t r⟩ :: acc.1, acc.2)
    else
      (acc.1,
       ⟨some i, "Invalid values in columns: " ++ String.intercalate ", " vr.2,
        ⟨r, t, hashAt t r⟩⟩ :: acc.2)

/-- `duplicated(subset=['record_hash'], keep='first')` /
`drop_duplicates(..., keep='first')`: scan in order, keep a row whose hash
was not seen before, mark the rest as duplicates. -/
def dedupGo (seen : List (List (String × Value))) : List CRow → List CRow × List CRow
  | [] => ([], [])
  | r :: rs =>
    if r.rhash ∈ seen then
      let p := dedupGo seen rs
      (p.1, r :: p.2)
    else
      let p := dedupGo (r.rhash :: seen) rs
      (r :: p.1, p.2)

/-- Source `validate_and_clean_data(df, table_name)`.  `t` is the single
`datetime.now()` value the call attaches to every row.  Returns (cleaned
rows, dropped rows); the source's `None` DataFrames are modelled by empty
lists (its callers only test `is None or .empty`).  Dropped order matches
`pd.concat([dropped_df, duplicates...])`: validation rejects first, then
duplicates with reason "Duplicate record". -/
def validate_and_clean_data (df : List Rec) (tableName : String) (t : Nat) :
    List CRow × List RejRow :=
  if df = [] then ([], [])
  else
    let schema := get_table_schema (tableType tableName)
    let vs := valStage schema t df.enum
    let dd := dedupGo [] vs.1
    (dd.1, vs.2 ++ dd.2.map (fun r => ⟨none, "Duplicate record", r⟩))

/-- One persisted database row: the data columns, plus the two metadata
columns when the row was written by the validating path (the raw chunked
path writes rows without them). -/
structure StoreRow where
  fields : Rec
  meta : Option (Nat × List (String × Value))
deriving DecidableEq, Repr

/-- A cleaned row as `cleaned_df.to_sql` persists it. -/
def toStore (r : CRow) : StoreRow :=
  ⟨r.fields, some (r.ts, r.rhash)⟩

/-- A raw record as `process_file_chunk`'s `df.to_sql` persists it. -/
def rawStore (r : Rec) : StoreRow :=
  ⟨r, none⟩

/-- Source `verify_upload(df, table_name, engine)`.  `table` is the current
content of the destination table; `sample` is the list of row indices that
`df.sample` happens to draw (the randomness is quantified away: theorems
hold for every sample).  Step 1 compares the uploaded count to the table's
total row count and fails immediately on mismatch; step 2 checks each
sampled record exists in the table (the SQL WHERE clause matches every
column, i.e. whole-row equality). -/
def verify_upload (df : List CRow) (table : List StoreRow) (sample : List Nat) : Bool :=
  if table.length ≠ df.length then false
  else (sample.filterMap (fun i => df.get? i)).all (fun r => decide (toStore r ∈ table))

/-- Source `upload_to_database(df, table_name, engine)`: validate and clean,
give up (False) on an empty or fully-rejected input, append the cleaned
rows, then verify.  Returns the success flag and the new table content.
The separate `<table>_dropped_records` audit table is not part of the
modelled state. -/
def upload_to_database (df : List Rec) (tableName : String) (t : Nat)
    (store : List StoreRow) (sample : List Nat) : Bool × List StoreRow :=
  if df = [] then (false, store)
  else
    let vd := validate_and_clean_data df tableName t
    if vd.1 = [] then (false, store)
    else
      let store2 := store ++ vd.1.map toStore
      (verify_upload vd.1 store2 sample, store2)

/-- The chunk partition `[df[i:i+chunk_size] for i in range(0, len(df), chunk_size)]`.
A zero chunk size raises in Python (`range` with step 0) and yields `[]`
here; `parallel_upload` is only ever called with a positive chunk size. -/
def chunkGo (c : Nat) : Nat → List Rec → List (List Rec)
  | 0, _ => []
  | _ + 1, [] => []
  | fuel + 1, x :: xs =>
      if c = 0 then []
      else (x :: xs).take c :: chunkGo c fuel ((x :: xs).drop c)

/-- The fuel argument of `chunkGo` only forces termination; the list
shrinks by at least one element per step, so any fuel bound of at least
the list length computes the full chunk partition. -/
def chunkList (l : List Rec) (c : Nat) : List (List Rec) :=
  chunkGo c l.length l

/-- Source `process_file_chunk(chunk_data)`: one raw `to_sql` append of the
chunk — no validation, no deduplication, no metadata columns.  The model
has no failing writes, so the success component is always True. -/
def process_file_chunk (chunk : List Rec) (store : List StoreRow) : Bool × List StoreRow :=
  (true, store ++ chunk.map rawStore)

/-- Source `parallel_upload(df, table_name, engine, chunk_size)`: below the
chunk size it delegates to the validating single-unit upload; otherwise it
writes every chunk through `process_file_chunk` and succeeds iff every
chunk write succeeded (always, in this failure-free model).  Concurrent
chunk completion only permutes rows between chunks; the model serializes
the appends in chunk order (the spec declares persisted row order
insignificant). -/
def parallel_upload (df : List Rec) (tableName : String) (chunkSize : Nat) (t : Nat)
    (store : List StoreRow) (sample : List Nat) : Bool × List StoreRow :=
  if df.length < chunkSize then upload_to_database df tableName t store sample
  else
    (true, (chunkList df chunkSize).foldl (fun s c => (process_file_chunk c s).2) store)

theorem dedupGo_fst_mem :
    ∀ (l : List CRow) (seen) (r : CRow), r ∈ (dedupGo seen l).1 → r ∈ l := by
  intro l
  induction l with
  | nil => intro seen r h; simp [dedupGo] at h
  | cons x xs ih =>
    intro seen r h
    by_cases hx : x.rhash ∈ seen
    · simp only [dedupGo, if_pos hx] at h
      exact List.mem_cons_of_mem _ (ih seen r h)
    · simp only [dedupGo, if_neg hx] at h
      rcases List.mem_cons.mp h with h | h
      · exact h ▸ List.mem_cons_self _ _
      · exact List.mem_cons_of_mem _ (ih _ r h)

theorem dedupGo_nodup :
    ∀ (l : List CRow) (seen),
      ((dedupGo seen l).1.map CRow.rhash).Nodup
        ∧ ∀ r ∈ (dedupGo seen l).1, r.rhash ∉ seen := by
  intro l
  induction l with
  | nil => intro seen; simp [dedupGo]
  | cons r rs ih =>
    intro seen
    by_cases hr : r.rhash ∈ seen
    · simpa only [dedupGo, if_pos hr] using ih seen
    · have h2 := ih (r.rhash :: seen)
      constructor
      · simp only [dedupGo, if_neg hr, List.map_cons, List.nodup_cons]
        refine ⟨?_, h2.1⟩
        intro hmem
        rcases List.mem_map.mp hmem with ⟨x, hx, hxe⟩
        exact (h2.2 x hx) (hxe ▸ List.mem_cons_self _ _)
      · intro x hx
        simp only [dedupGo, if_neg hr] at hx
        rcases List.mem_cons.mp hx with h | h
        · exact h ▸ hr
        · intro hs
          exact (h2.2 x h) (List.mem_cons_of_mem _ hs)

/-- Pandas `duplicated(keep='first')` semantics for `dedupGo`: relative to a
start index `k`, a row is kept exactly when its hash is neither in `seen`
nor among the hashes of the rows before it. -/
theorem dedupGo_enumFrom :
    ∀ (l : List CRow) (seen : List (List (String × Value))) (k : Nat),
      (dedupGo seen l).1 =
        ((List.enumFrom k l).filter fun p =>
          decide (p.2.rhash ∉ seen ∧ p.2.rhash ∉ (l.take (p.1 - k)).map CRow.rhash)).map
          Prod.snd
      ∧ (dedupGo seen l).2 =
        ((List.enumFrom k l).filter fun p =>
          !decide (p.2.rhash ∉ seen ∧ p.2.rhash ∉ (l.take (p.1 - k)).map CRow.rhash)).map
          Prod.snd := by
  intro l
  induction l with
  | nil => intro seen k; simp [dedupGo]
  | cons r rs ih =>
    intro seen k
    rw [List.enumFrom_cons]
    by_cases hr : r.rhash ∈ seen
    · have hhead :
          (decide (r.rhash ∉ seen ∧ r.rhash ∉ ((r :: rs).take (k - k)).map CRow.rhash)) =
            false := by
        simp [hr]
      have hcong : ∀ p ∈ List.enumFrom (k + 1) rs,
          (decide (p.2.rhash ∉ seen ∧
              p.2.rhash ∉ ((r :: rs).take (p.1 - k)).map CRow.rhash)) =
            (decide (p.2.rhash ∉ seen ∧
              p.2.rhash ∉ (rs.take (p.1 - (k + 1))).map CRow.rhash)) := by
        intro p hp
        obtain ⟨i, a⟩ := p
        have hk := (List.mem_enumFrom hp).1
        have hidx : i - k = (i - (k + 1)) + 1 := by omega
        rw [decide_eq_decide]
        simp only [hidx, List.take_succ_cons, List.map_cons, List.mem_cons]
        constructor
        · rintro ⟨h1, h2⟩
          exact ⟨h1, fun hm => h2 (Or.inr hm)⟩
        · rintro ⟨h1, h2⟩
          refine ⟨h1, fun hm => ?_⟩
          rcases hm with hm | hm
          · exact h1 (hm ▸ hr)
          · exact h2 hm
      have hflt :
          List.filter (fun p =>
              decide (p.2.rhash ∉ seen ∧
                p.2.rhash ∉ ((r :: rs).take (p.1 - k)).map CRow.rhash))
            (List.enumFrom (k + 1) rs) =
          List.filter (fun p =>
              decide (p.2.rhash ∉ seen ∧
                p.2.rhash ∉ (rs.take (p.1 - (k + 1))).map CRow.rhash))
            (List.enumFrom (k + 1) rs) :=
        List.filter_congr hcong
      have hfltn :
          List.filter (fun p =>
              !decide (p.2.rhash ∉ seen ∧
                p.2.rhash ∉ ((r :: rs).take (p.1 - k)).map CRow.rhash))
            (List.enumFrom (k + 1) rs) =
          List.filter (fun p =>
              !decide (p.2.rhash ∉ seen ∧
                p.2.rhash ∉ (rs.take (p.1 - (k + 1))).map CRow.rhash))
            (List.enumFrom (k + 1) rs) :=
        List.filter_congr fun p hp => by rw [hcong p hp]
      have ihk := ih seen (k + 1)
      constructor
      · simp only [dedupGo, if_pos hr, List.filter_cons, hhead, Bool.false_eq_true,
          if_false]
        rw [hflt]
        exact ihk.1
      · simp only [dedupGo, if_pos hr, List.filter_cons, hhead, Bool.not_false, if_true,
          List.map_cons]
        rw [hfltn]
        rw [ihk.2]
    · have hhead :
          (decide (r.rhash ∉ seen ∧ r.rhash ∉ ((r :: rs).take (k - k)).map CRow.rhash)) =
            true := by
        simp [hr]
      have hcong : ∀ p ∈ List.enumFrom (k + 1) rs,
          (decide (p.2.rhash ∉ seen ∧
              p.2.rhash ∉ ((r :: rs).take (p.1 - k)).map CRow.rhash)) =
            (decide (p.2.rhash ∉ r.rhash :: seen ∧
              p.2.rhash ∉ (rs.take (p.1 - (k + 1))).map CRow.rhash)) := by
        intro p hp
        obtain ⟨i, a⟩ := p
        have hk := (List.mem_enumFrom hp).1
        have hidx : i - k = (i - (k + 1)) + 1 := by omega
        rw [decide_eq_decide]
        simp only [hidx, List.take_succ_cons, List.map_cons, List.mem_cons, not_or]
        tauto
      have hflt :
          List.filter (fun p =>
              decide (p.2.rhash ∉ seen ∧
                p.2.rhash ∉ ((r :: rs).take (p.1 - k)).map CRow.rhash))
            (List.enumFrom (k + 1) rs) =
          List.filter (fun p =>
              decide (p.2.rhash ∉ r.rhash :: seen ∧
                p.2.rhash ∉ (rs.take (p.1 - (k + 1))).map CRow.rhash))
            (List.enumFrom (k + 1) rs) :=
        List.filter_congr hcong
      have hfltn :
          List.filter (fun p =>
              !decide (p.2.rhash ∉ seen ∧
                p.2.rhash ∉ ((r :: rs).take (p.1 - k)).map CRow.rhash))
            (List.enumFrom (k + 1) rs) =
          List.filter (fun p =>
              !decide (p.2.rhash ∉ r.rhash :: seen ∧
                p.2.rhash ∉ (rs.take (p.1 - (k + 1))).map CRow.rhash))
            (List.enumFrom (k + 1) rs) :=
        List.filter_congr fun p hp => by rw [hcong p hp]
      have ihk := ih (r.rhash :: seen) (k + 1)
      constructor
      · simp only [dedupGo, if_neg hr, List.filter_cons, hhead, if_true, List.map_cons]
        rw [hflt]
        rw [ihk.1]
      · simp only [dedupGo, if_neg hr, List.filter_cons, hhead, Bool.not_true,
          Bool.false_eq_true, if_false]
        rw [hfltn]
        exact ihk.2

/-- Timestamp-independent view of the validation pass: the (raw,
standardized) field lists of the rows that pass every check. -/
def valAcc (schema : List (String × FieldRule)) : List (Nat × Rec) → List (Rec × Rec)
  | [] => []
  | (_, r) :: rest =>
    let vr := validateRow schema r
    if vr.2 = [] then (r, vr.1) :: valAcc schema rest else valAcc schema rest

/-- Timestamp-independent view of the validation pass: index, raw fields
and reason string of the rows that fail some check. -/
def valRej (schema : List (String × FieldRule)) : List (Nat × Rec) → List (Nat × Rec × String)
  | [] => []
  | (i, r) :: rest =>
    let vr := validateRow schema r
    if vr.2 = [] then valRej schema rest
    else (i, r, "Invalid values in columns: " ++ String.intercalate ", " vr.2)
      :: valRej schema rest

/-- `valStage` only uses the timestamp to fill the two metadata columns:
its accept/reject decisions and reasons are those of `valAcc`/`valRej`. -/
theorem valStage_eq (schema : List (String × FieldRule)) (t : Nat) :
    ∀ l : List (Nat × Rec),
      valStage schema t l =
        ((valAcc schema l).map fun p => (⟨p.2, t, hashAt t p.1⟩ : CRow),
         (valRej schema l).map fun p =>
           (⟨some p.1, p.2.2, ⟨p.2.1, t, hashAt t p.2.1⟩⟩ : RejRow)) := by
  intro l
  induction l with
  | nil => simp [valStage, valAcc, valRej]
  | cons x xs ih =>
    obtain ⟨i, r⟩ := x
    by_cases hv : (validateRow schema r).2 = []
    · simp [valStage, valAcc, valRej, hv, ih]
    · simp [valStage, valAcc, valRej, hv, ih]

theorem valStage_fst_mem (schema : List (String × FieldRule)) (t : Nat) :
    ∀ (l : List (Nat × Rec)) (cr : CRow), cr ∈ (valStage schema t l).1 →
      cr.ts = t ∧ ∃ p ∈ l, cr.rhash = hashAt t p.2 := by
  intro l
  induction l with
  | nil => intro cr h; simp [valStage] at h
  | cons x xs ih =>
    intro cr h
    obtain ⟨i, r⟩ := x
    by_cases hv : (validateRow schema r).2 = []
    · simp only [valStage, if_pos hv] at h
      rcases List.mem_cons.mp h with h | h
      · subst h
        exact ⟨rfl, ⟨(i, r), List.mem_cons_self _ _, rfl⟩⟩
      · obtain ⟨hts, p, hp, hh⟩ := ih cr h
        exact ⟨hts, p, List.mem_cons_of_mem _ hp, hh⟩
    · simp only [valStage, if_neg hv] at h
      obtain ⟨hts, p, hp, hh⟩ := ih cr h
      exact ⟨hts, p, List.mem_cons_of_mem _ hp, hh⟩

/-- The deduplication decisions do not depend on the timestamp: running
`dedupGo` over the same (raw, standardized) rows stamped with two different
times keeps and drops rows at exactly the same positions, because hash
equality within one run is record-permutation equality (`hashAt_eq_iff`)
either way. -/
theorem dedupGo_time_inv (t₁ t₂ : Nat) :
    ∀ (A : List (Rec × Rec)) (F : List Rec),
      ((dedupGo (F.map (hashAt t₁)) (A.map fun p => (⟨p.2, t₁, hashAt t₁ p.1⟩ : CRow))).1.map
          CRow.fields
        = (dedupGo (F.map (hashAt t₂)) (A.map fun p => (⟨p.2, t₂, hashAt t₂ p.1⟩ : CRow))).1.map
          CRow.fields)
      ∧ ((dedupGo (F.map (hashAt t₁)) (A.map fun p => (⟨p.2, t₁, hashAt t₁ p.1⟩ : CRow))).2.map
          CRow.fields
        = (dedupGo (F.map (hashAt t₂)) (A.map fun p => (⟨p.2, t₂, hashAt t₂ p.1⟩ : CRow))).2.map
          CRow.fields) := by
  intro A
  induction A with
  | nil => intro F; simp [dedupGo]
  | cons a rest ih =>
    intro F
    have hmem : ∀ t : Nat, hashAt t a.1 ∈ F.map (hashAt t) ↔ ∃ f ∈ F, f.Perm a.1 := by
      intro t
      rw [List.mem_map]
      constructor
      · rintro ⟨f, hf, he⟩
        exact ⟨f, hf, (hashAt_eq_iff t f a.1).mp he⟩
      · rintro ⟨f, hf, hp⟩
        exact ⟨f, hf, (hashAt_eq_iff t f a.1).mpr hp⟩
    by_cases hp : ∃ f ∈ F, f.Perm a.1
    · have h1 : hashAt t₁ a.1 ∈ F.map (hashAt t₁) := (hmem t₁).mpr hp
      have h2 : hashAt t₂ a.1 ∈ F.map (hashAt t₂) := (hmem t₂).mpr hp
      have ihF := ih F
      simp only [List.map_cons, dedupGo, if_pos h1, if_pos h2, List.map_cons]
      exact ⟨ihF.1, by rw [ihF.2]⟩
    · have h1 : hashAt t₁ a.1 ∉ F.map (hashAt t₁) := fun hm => hp ((hmem t₁).mp hm)
      have h2 : hashAt t₂ a.1 ∉ F.map (hashAt t₂) := fun hm => hp ((hmem t₂).mp hm)
      have ihF := ih (a.1 :: F)
      simp only [List.map_cons] at ihF
      simp only [List.map_cons, dedupGo, if_neg h1, if_neg h2, List.map_cons]
      exact ⟨by rw [ihF.1], ihF.2⟩

theorem chunkGo_nil (c : Nat) : ∀ fuel, chunkGo c fuel [] = [] := by
  intro fuel
  cases fuel <;> rfl

/-- The chunks concatenate back to the original list. -/
theorem chunkGo_flatten (c : Nat) (hc : 0 < c) :
    ∀ (fuel : Nat) (l : List Rec), l.length ≤ fuel → (chunkGo c fuel l).flatten = l := by
  intro fuel
  induction fuel with
  | zero =>
    intro l hl
    have : l = [] := List.length_eq_zero.mp (Nat.le_zero.mp hl)
    subst this
    rfl
  | succ f ihf =>
    intro l hl
    cases l with
    | nil => rfl
    | cons x xs =>
      have hc' : ¬ c = 0 := Nat.pos_iff_ne_zero.mp hc
      simp only [chunkGo, if_neg hc', List.flatten_cons]
      rw [ihf _ (by simp only [List.length_drop]; simp only [List.length_cons] at hl ⊢; omega)]
      exact List.take_append_drop c (x :: xs)

/-- Every chunk is nonempty and no longer than the chunk size. -/
theorem chunkGo_mem (c : Nat) (hc : 0 < c) :
    ∀ (fuel : Nat) (l : List Rec), l.length ≤ fuel →
      ∀ ch ∈ chunkGo c fuel l, ch ≠ [] ∧ ch.length ≤ c := by
  intro fuel
  induction fuel with
  | zero =>
    intro l hl ch hch
    have : l = [] := List.length_eq_zero.mp (Nat.le_zero.mp hl)
    subst this
    simp [chunkGo] at hch
  | succ f ihf =>
    intro l hl ch hch
    cases l with
    | nil => simp [chunkGo] at hch
    | cons x xs =>
      have hc' : ¬ c = 0 := Nat.pos_iff_ne_zero.mp hc
      simp only [chunkGo, if_neg hc'] at hch
      rcases List.mem_cons.mp hch with h | h
      · subst h
        constructor
        · rw [Ne, List.take_eq_nil_iff]
          rintro (h | h)
          · exact hc' h
          · exact List.cons_ne_nil _ _ h
        · rw [List.length_take]
          exact min_le_left _ _
      · exact ihf _ (by simp only [List.length_drop]; simp only [List.length_cons] at hl ⊢; omega) ch h

/-- Every chunk except possibly the last has exactly the chunk size. -/
theorem chunkGo_dropLast (c : Nat) (hc : 0 < c) :
    ∀ (fuel : Nat) (l : List Rec), l.length ≤ fuel →
      ∀ ch ∈ (chunkGo c fuel l).dropLast, ch.length = c := by
  intro fuel
  induction fuel with
  | zero =>
    intro l hl ch hch
    have : l = [] := List.length_eq_zero.mp (Nat.le_zero.mp hl)
    subst this
    simp [chunkGo] at hch
  | succ f ihf =>
    intro l hl ch hch
    cases l with
    | nil => simp [chunkGo] at hch
    | cons x xs =>
      have hc' : ¬ c = 0 := Nat.pos_iff_ne_zero.mp hc
      simp only [chunkGo, if_neg hc'] at hch
      cases hrest : chunkGo c f ((x :: xs).drop c) with
      | nil =>
        rw [hrest] at hch
        simp at hch
      | cons y ys =>
        rw [hrest, List.dropLast_cons₂] at hch
        rcases List.mem_cons.mp hch with h | h
        · subst h
          have hdrop : (x :: xs).drop c ≠ [] := by
            intro hd
            rw [hd, chunkGo_nil] at hrest
            exact List.cons_ne_nil _ _ hrest.symm
          have hlen : c < (x :: xs).length := by
            by_contra hle
            exact hdrop (List.drop_eq_nil_iff.mpr (by omega))
          rw [List.length_take]
          omega
        · rw [← hrest] at h
          exact ihf _ (by simp only [List.length_drop]; simp only [List.length_cons] at hl ⊢; omega) ch h

/-- Folding the chunk writes appends all chunk rows (raw) to the store. -/
theorem foldl_process_chunks :
    ∀ (chunks : List (List Rec)) (s : List StoreRow),
      chunks.foldl (fun acc ch => (process_file_chunk ch acc).2) s
        = s ++ chunks.flatten.map rawStore := by
  intro chunks
  induction chunks with
  | nil => intro s; simp
  | cons ch rest ih =>
    intro s
    rw [List.foldl_cons, ih]
    simp only [process_file_chunk, List.flatten_cons, List.map_append, List.append_assoc]

/-- Closed form of `parallel_upload`: below the chunk size it is the
validating single-unit upload, at or above it it appends every raw input
record and reports success. -/
theorem parallel_upload_eq (df : List Rec) (n : String) (c t : Nat)
    (s : List StoreRow) (sample : List Nat) (hc : 0 < c) :
    parallel_upload df n c t s sample =
      if df.length < c then upload_to_database df n t s sample
      else (true, s ++ df.map rawStore) := by
  unfold parallel_upload
  by_cases h : df.length < c
  · simp [h]
  · simp only [if_neg h]
    rw [show chunkList df c = chunkGo c df.length df from rfl] at *
    rw [foldl_process_chunks, chunkGo_flatten c hc df.length df le_rfl]

/-- The projection of a dropped-records entry that is independent of the
attached metadata: original index, reason, and data columns. -/
def RejRow.core (r : RejRow) : Option Nat × String × Rec :=
  (r.idx, r.reason, r.row.fields)

/-- Specification-level first-seen-wins partition: position `i` is kept
exactly when its `record_hash` does not occur among the hashes of the rows
before position `i`; the remaining rows are the duplicates, in order. -/
def firstOccurs (l : List CRow) : List CRow × List CRow :=
  ((l.enum.filter fun p => decide (p.2.rhash ∉ (l.take p.1).map CRow.rhash)).map Prod.snd,
   (l.enum.filter fun p => !decide (p.2.rhash ∉ (l.take p.1).map CRow.rhash)).map Prod.snd)

/-- The seen-set implementation of deduplication equals the positional
first-seen-wins specification. -/
theorem dedupGo_eq_firstOccurs (l : List CRow) : dedupGo [] l = firstOccurs l := by
  obtain ⟨h1, h2⟩ := dedupGo_enumFrom l [] 0
  have hc : ∀ p ∈ List.enumFrom 0 l,
      (decide (p.2.rhash ∉ ([] : List (List (String × Value))) ∧
        p.2.rhash ∉ (l.take (p.1 - 0)).map CRow.rhash)) =
      (decide (p.2.rhash ∉ (l.take p.1).map CRow.rhash)) := by
    intro p _
    rw [decide_eq_decide]
    simp
  unfold firstOccurs
  have e1 : (dedupGo ([] : List (List (String × Value))) l).1 =
      (l.enum.filter fun p => decide (p.2.rhash ∉ (l.take p.1).map CRow.rhash)).map Prod.snd := by
    rw [h1]
    show (List.filter _ (List.enumFrom 0 l)).map Prod.snd = _
    rw [List.filter_congr hc]
    rfl
  have e2 : (dedupGo ([] : List (List (String × Value))) l).2 =
      (l.enum.filter fun p => !decide (p.2.rhash ∉ (l.take p.1).map CRow.rhash)).map Prod.snd := by
    rw [h2]
    show (List.filter _ (List.enumFrom 0 l)).map Prod.snd = _
    rw [List.filter_congr fun p hp => by rw [hc p hp]]
    rfl
  exact Prod.ext e1 e2

/-- C1 — Store purity.  The claim asserts that on every upload path only
validated, deduplicated records reach the store.  This is FALSE for the
parallel chunked path: `process_file_chunk` calls `to_sql` on the raw
chunk, bypassing `validate_and_clean_data` entirely.  The spec states the
guarantee explicitly, so this is a code bug.  Evidence at a concrete
input: a `tmb` record with `TMB = -1` (violating the `min: 0` rule, so
validation accepts nothing and the validating path stores nothing) is
nevertheless committed verbatim — and reported as a success — by the
chunked path with chunk size 1. -/
theorem C1_parallel_chunk_path_skips_validation :
    (validate_and_clean_data
        [[("SampleName", Value.str "S1"), ("TMB", Value.rat (-1)),
          ("BinomialLow", Value.rat 0), ("BinomialHigh", Value.rat 1)]] "tmb_data" 0).1 = []
  ∧ parallel_upload
        [[("SampleName", Value.str "S1"), ("TMB", Value.rat (-1)),
          ("BinomialLow", Value.rat 0), ("BinomialHigh", Value.rat 1)]] "tmb_data" 1 0 [] []
      = (true,
         [rawStore [("SampleName", Value.str "S1"), ("TMB", Value.rat (-1)),
           ("BinomialLow", Value.rat 0), ("BinomialHigh", Value.rat 1)]])
  ∧ upload_to_database
        [[("SampleName", Value.str "S1"), ("TMB", Value.rat (-1)),
          ("BinomialLow", Value.rat 0), ("BinomialHigh", Value.rat 1)]] "tmb_data" 0 [] []
      = (false, []) := by
  decide

/-- C2 counterexample.  The claim says a record set whose size N is at or
below the chunk size C is written as a single unit, and that chunk size C
and chunk size N yield the same persisted record set.  Both parts fail:
the source tests `len(df) < chunk_size` strictly, so at N = C = 1 the
chunked raw path runs instead of the single-unit validating path
(different persisted rows), and a run with C = 2 > N = 1 (single-unit)
persists a different record set than a run with C = N = 1 (chunked). -/
theorem C2_counterexample :
    (parallel_upload [[("a", Value.str "v")]] "x" 1 0 [] []).2
        ≠ (upload_to_database [[("a", Value.str "v")]] "x" 0 [] []).2
  ∧ (parallel_upload [[("a", Value.str "v")]] "x" 2 0 [] []).2
        ≠ (parallel_upload [[("a", Value.str "v")]] "x" 1 0 [] []).2 := by
  decide

/-- C2 amended — chunking behaviour as the code implements it: for a
positive chunk size C, a record set of size N strictly below C is written
as a single unit through the validating upload; otherwise the set is
partitioned into contiguous disjoint chunks (they concatenate back to the
input, every chunk is nonempty and at most C long, and every chunk except
possibly the last is exactly C long) and every raw record is appended;
consequently any two chunk sizes that are both at most N persist the same
record set (second projection of the closed form), which is the surviving
part of chunking transparency. -/
theorem C2_chunking_amended (df : List Rec) (n : String) (c t : Nat)
    (s : List StoreRow) (sample : List Nat) (hc : 0 < c) :
    parallel_upload df n c t s sample =
        (if df.length < c then upload_to_database df n t s sample
         else (true, s ++ df.map rawStore))
  ∧ (chunkList df c).flatten = df
  ∧ (∀ ch ∈ chunkList df c, ch ≠ [] ∧ ch.length ≤ c)
  ∧ (∀ ch ∈ (chunkList df c).dropLast, ch.length = c)
  ∧ (c ≤ df.length →
      (parallel_upload df n c t s sample).2 = (parallel_upload df n df.length t s sample).2) := by
  refine ⟨parallel_upload_eq df n c t s sample hc,
    chunkGo_flatten c hc df.length df le_rfl,
    chunkGo_mem c hc df.length df le_rfl,
    chunkGo_dropLast c hc df.length df le_rfl, ?_⟩
  intro hcn
  rw [parallel_upload_eq df n c t s sample hc,
    parallel_upload_eq df n df.length t s sample (lt_of_lt_of_le hc hcn)]
  rw [if_neg (Nat.not_lt.mpr hcn), if_neg (lt_irrefl df.length)]

theorem C2_chunking_amended_witness :
    (0 : Nat) < 1
  ∧ parallel_upload [[("a", Value.int 1)], [("b", Value.int 2)]] "x" 1 0 [] [] =
      (true, [rawStore [("a", Value.int 1)], rawStore [("b", Value.int 2)]])
  ∧ (chunkList [[("a", Value.int 1)], [("b", Value.int 2)]] 1).flatten
      = [[("a", Value.int 1)], [("b", Value.int 2)]] := by
  refine ⟨by decide, ?_, ?_⟩
  · rw [(C2_chunking_amended [[("a", Value.int 1)], [("b", Value.int 2)]] "x" 1 0 [] []
      (by decide)).1]
    decide
  · exact (C2_chunking_amended [[("a", Value.int 1)], [("b", Value.int 2)]] "x" 1 0 [] []
      (by decide)).2.1

/-- C3 counterexample.  Two executions of the Validator+Deduplicator on
the same one-record input are not identical when their `datetime.now()`
values differ: the attached `upload_timestamp` and the derived
`record_hash` differ. -/
theorem C3_counterexample :
    validate_and_clean_data [[("a", Value.str "v")]] "x" 0
      ≠ validate_and_clean_data [[("a", Value.str "v")]] "x" 1 := by
  decide

/-- C3 amended — determinism up to the clock: for a fixed input and table
name, two executions of `validate_and_clean_data` agree on everything
except the `upload_timestamp` value and the `record_hash` derived from it;
in particular the same rows are accepted, the same rows are rejected, with
the same reasons and original indices, regardless of the two clock
readings (and two executions with equal clock readings are identical
outright, the function being pure). -/
theorem C3_determinism_amended (df : List Rec) (n : String) (t₁ t₂ : Nat) :
    (validate_and_clean_data df n t₁).1.map CRow.fields
        = (validate_and_clean_data df n t₂).1.map CRow.fields
  ∧ (validate_and_clean_data df n t₁).2.map RejRow.core
        = (validate_and_clean_data df n t₂).2.map RejRow.core := by
  by_cases hdf : df = []
  · simp [validate_and_clean_data, hdf]
  · unfold validate_and_clean_data
    simp only [if_neg hdf, valStage_eq]
    have hdd := dedupGo_time_inv t₁ t₂ (valAcc (get_table_schema (tableType n)) df.enum) []
    simp only [List.map_nil] at hdd
    refine ⟨hdd.1, ?_⟩
    simp only [List.map_append]
    congr 1
    · rw [List.map_map, List.map_map]
      rfl
    · rw [List.map_map, List.map_map]
      have h2 := congrArg
        (List.map fun f : Rec => ((none : Option Nat), "Duplicate record", f)) hdd.2
      rw [List.map_map, List.map_map] at h2
      exact h2

/-- C4 — deduplication is first-seen-wins: the accepted output of
`validate_and_clean_data` is exactly the first occurrence of each distinct
`record_hash` among the validation-accepted rows in original order
(`firstOccurs`), every later row sharing a hash is appended to the
rejected output with reason "Duplicate record" (the source's literal
string for the "duplicate" classification), and the accepted output's
hashes are unique. -/
theorem C4_dedup_first_seen_wins (df : List Rec) (n : String) (t : Nat) :
    ((validate_and_clean_data df n t).1.map CRow.rhash).Nodup
  ∧ (validate_and_clean_data df n t).1
      = (firstOccurs (valStage (get_table_schema (tableType n)) t df.enum).1).1
  ∧ (validate_and_clean_data df n t).2
      = (valStage (get_table_schema (tableType n)) t df.enum).2
        ++ (firstOccurs (valStage (get_table_schema (tableType n)) t df.enum).1).2.map
            (fun r => (⟨none, "Duplicate record", r⟩ : RejRow)) := by
  by_cases hdf : df = []
  · subst hdf
    refine ⟨by simp [validate_and_clean_data], ?_, ?_⟩ <;>
      simp [validate_and_clean_data, valStage, firstOccurs, List.enum_nil]
  · unfold validate_and_clean_data
    simp only [if_neg hdf]
    refine ⟨(dedupGo_nodup _ []).1, ?_, ?_⟩
    · rw [dedupGo_eq_firstOccurs]
    · rw [dedupGo_eq_firstOccurs]

/-- C5 — hash stability under field reordering: `generate_record_hash`
sorts the (field name, value) pairs before digesting, so records that are
rearrangements of the same field/value pairs hash identically. -/
theorem C5_hash_stability (r₁ r₂ : Rec) (h : r₁.Perm r₂) :
    generate_record_hash r₁ = generate_record_hash r₂ :=
  sortItems_eq_of_perm h

theorem C5_hash_stability_witness :
    (([("GENE", Value.str "BRCA1"), ("CHROM", Value.str "1")] : Rec).Perm
        [("CHROM", Value.str "1"), ("GENE", Value.str "BRCA1")])
  ∧ generate_record_hash [("GENE", Value.str "BRCA1"), ("CHROM", Value.str "1")]
      = generate_record_hash [("CHROM", Value.str "1"), ("GENE", Value.str "BRCA1")] :=
  ⟨List.Perm.swap _ _ _,
   C5_hash_stability _ _ (List.Perm.swap ("CHROM", Value.str "1") ("GENE", Value.str "BRCA1") [])⟩

/-- C6 counterexample.  The claim says chromosome normalization strips a
case-insensitive chromosome PREFIX and passes every other value through
UNCHANGED.  The source instead uppercases the whole value and removes
every occurrence of "CHR": the value "1x" (no chromosome prefix) becomes
"1X" (≠ "1x"), and "1chr2" (the prefix-free occurrence is interior)
becomes "12" (≠ "1chr2"). -/
theorem C6_counterexample :
    standardize_value (Value.str "1x") "CHROM" ⟨.pstr, true, some .chromP, none, none⟩
        = some (Value.str "1X")
  ∧ ("1X" : String) ≠ "1x"
  ∧ standardize_value (Value.str "1chr2") "CHROM" ⟨.pstr, true, some .chromP, none, none⟩
        = some (Value.str "12")
  ∧ ("12" : String) ≠ "1chr2" := by
  decide

/-- The chromosome normalization as the amended claim words it: uppercase
the string, remove every occurrence of "CHR", then map the results "X" and
"Y" to "23" and "24"; everything else is returned in that uppercased,
stripped form. -/
def chromNormSpec (s : String) : String :=
  let u := removeCHR (strUpper s)
  if u = "X" then "23" else if u = "Y" then "24" else u

/-- C6 amended — for every field whose name contains "CHROM" and every
non-null value, `standardize_value` returns exactly the string
`chromNormSpec` prescribes (so "chr1" ↦ "1", "X"/"chrX" ↦ "23",
"Y"/"chrY" ↦ "24", and other values come back uppercased with every
"CHR" substring removed rather than unchanged). -/
theorem C6_chrom_normalization_amended (v : Value) (col : String) (rule : FieldRule)
    (h : strContains col "CHROM" = true) (hv : v ≠ Value.nullV) :
    standardize_value v col rule = some (Value.str (chromNormSpec (pyStr v))) := by
  unfold standardize_value chromNormSpec
  rw [if_neg hv, if_pos h]
  by_cases h1 : removeCHR (strUpper (pyStr v)) = "X"
  · simp [h1]
  · by_cases h2 : removeCHR (strUpper (pyStr v)) = "Y"
    · simp [h1, h2]
    · simp [h1, h2]

theorem C6_chrom_normalization_amended_witness :
    strContains "CHROM" "CHROM" = true
  ∧ (Value.str "chr7") ≠ Value.nullV
  ∧ standardize_value (Value.str "chr7") "CHROM" ⟨.pstr, true, some .chromP, none, none⟩
      = some (Value.str (chromNormSpec (pyStr (Value.str "chr7"))))
  ∧ chromNormSpec "chr7" = "7"
  ∧ chromNormSpec "X" = "23"
  ∧ chromNormSpec "chrY" = "24" :=
  ⟨by decide, by decide,
   C6_chrom_normalization_amended (Value.str "chr7") "CHROM"
     ⟨.pstr, true, some .chromP, none, none⟩ (by decide) (by decide),
   by decide, by decide, by decide⟩

/-- C7 counterexample.  The claim says null OR EMPTY input yields null
regardless of the target type.  `pd.isna('')` is false, so an empty
string reaches the type dispatch; with a string-typed rule,
`str('').strip()` returns the empty string, not null. -/
theorem C7_counterexample :
    standardize_value (Value.str "") "SampleName" ⟨.pstr, true, some .alnumUnd, none, none⟩
        = some (Value.str "")
  ∧ some (Value.str "") ≠ (none : Option Value) := by
  decide

/-- C7 amended — totality of the normalizer restated as the code behaves:
null input yields null regardless of the target type and field; a string
that fails numeric coercion yields null for int/float targets; but an
EMPTY STRING is only nulled by the failing numeric coercion — for a
string target it comes back as the empty string (the modelled function is
total by construction; the source can also raise `OverflowError` on an
infinite float reaching an int target, outside this model's value range). -/
theorem C7_normalizer_amended :
    (∀ (col : String) (rule : FieldRule), standardize_value Value.nullV col rule = none)
  ∧ (∀ (s : String) (col : String) (rule : FieldRule),
        strContains col "CHROM" = false → (rule.ty = .pint ∨ rule.ty = .pfloat) →
        parseRat s = none → standardize_value (Value.str s) col rule = none)
  ∧ (∀ (col : String) (rule : FieldRule),
        strContains col "CHROM" = false → rule.ty = .pstr →
        standardize_value (Value.str "") col rule = some (Value.str "")) := by
  refine ⟨?_, ?_, ?_⟩
  · intro col rule
    simp [standardize_value]
  · intro s col rule hC hty hp
    unfold standardize_value
    rw [if_neg (by simp : ¬ (Value.str s = Value.nullV))]
    rw [if_neg (by simp [hC] : ¬ (strContains col "CHROM" = true))]
    rcases hty with h | h <;> rw [h] <;> simp [toFloatQ, hp]
  · intro col rule hC hty
    unfold standardize_value
    rw [if_neg (by simp : ¬ (Value.str "" = Value.nullV))]
    rw [if_neg (by simp [hC] : ¬ (strContains col "CHROM" = true))]
    rw [hty]
    decide

theorem C7_normalizer_amended_witness :
    standardize_value Value.nullV "TMB" ⟨.pfloat, true, none, some 0, none⟩ = none
  ∧ (strContains "TMB" "CHROM" = false ∧ parseRat "abc" = none
      ∧ standardize_value (Value.str "abc") "TMB" ⟨.pfloat, true, none, some 0, none⟩ = none)
  ∧ (strContains "SampleName" "CHROM" = false
      ∧ standardize_value (Value.str "") "SampleName" ⟨.pstr, true, some .alnumUnd, none, none⟩
          = some (Value.str "")) :=
  ⟨C7_normalizer_amended.1 "TMB" ⟨.pfloat, true, none, some 0, none⟩,
   ⟨by decide, by decide,
    C7_normalizer_amended.2.1 "abc" "TMB" ⟨.pfloat, true, none, some 0, none⟩
      (by decide) (Or.inr rfl) (by decide)⟩,
   ⟨by decide,
    C7_normalizer_amended.2.2 "SampleName" ⟨.pstr, true, some .alnumUnd, none, none⟩
      (by decide) rfl⟩⟩

/-- C8 — verification soundness: whenever the store's row count for the
destination table differs from the uploaded record count, `verify_upload`
returns failure, for EVERY possible random sample (so independently of,
and before, the sampled record-existence checks). -/
theorem C8_verification_soundness (df : List CRow) (table : List StoreRow)
    (sample : List Nat) (h : table.length ≠ df.length) :
    verify_upload df table sample = false := by
  unfold verify_upload
  rw [if_pos h]

theorem C8_verification_soundness_witness :
    (([] : List StoreRow).length ≠ ([(⟨[], 0, []⟩ : CRow)] : List CRow).length)
  ∧ verify_upload [(⟨[], 0, []⟩ : CRow)] [] [0] = false :=
  ⟨by decide, C8_verification_soundness [(⟨[], 0, []⟩ : CRow)] [] [0] (by decide)⟩

/-- C9 — the timestamp participates in the hash: (1) every accepted row of
`validate_and_clean_data` is stamped with the run's clock value and its
`record_hash` is the hash of an input record with the `upload_timestamp`
column attached; (2) hashing the same record under two different
timestamps yields different hashes (the record itself carrying no
`upload_timestamp` field); (3) within one run — a single shared timestamp
— records made of the same field/value pairs still hash identically, so
in-batch duplicates still collide. -/
theorem C9_timestamp_in_hash :
    (∀ (df : List Rec) (n : String) (t : Nat) (r : CRow),
        r ∈ (validate_and_clean_data df n t).1 →
        r.ts = t ∧ ∃ raw ∈ df, r.rhash = hashAt t raw)
  ∧ (∀ (r : Rec) (t₁ t₂ : Nat), "upload_timestamp" ∉ r.map Prod.fst → t₁ ≠ t₂ →
        hashAt t₁ r ≠ hashAt t₂ r)
  ∧ (∀ (r₁ r₂ : Rec) (t : Nat), r₁.Perm r₂ → hashAt t r₁ = hashAt t r₂) := by
  refine ⟨?_, ?_, ?_⟩
  · intro df n t r hr
    unfold validate_and_clean_data at hr
    by_cases hdf : df = []
    · simp [hdf] at hr
    · simp only [if_neg hdf] at hr
      have h1 := dedupGo_fst_mem _ _ _ hr
      obtain ⟨hts, p, hp, hh⟩ := valStage_fst_mem _ t _ _ h1
      exact ⟨hts, p.2, List.snd_mem_of_mem_enum hp, hh⟩
  · intro r t₁ t₂ hname hne he
    unfold hashAt generate_record_hash at he
    have hperm := (sortItems_eq_iff_perm _ _).mp he
    have hmem : ("upload_timestamp", Value.time t₁)
        ∈ r ++ [("upload_timestamp", Value.time t₂)] :=
      hperm.mem_iff.mp (List.mem_append_right r (List.mem_singleton_self _))
    rcases List.mem_append.mp hmem with h | h
    · exact hname (List.mem_map.mpr ⟨_, h, rfl⟩)
    · have heq := List.mem_singleton.mp h
      exact hne (Value.time.inj (congrArg Prod.snd heq))
  · intro r₁ r₂ t h
    exact (hashAt_eq_iff t r₁ r₂).mpr h

theorem C9_timestamp_in_hash_witness :
    ((⟨[("a", Value.str "v")], 0,
        [("a", Value.str "v"), ("upload_timestamp", Value.time 0)]⟩ : CRow).ts = 0
      ∧ ∃ raw ∈ [[("a", Value.str "v")]],
          (⟨[("a", Value.str "v")], 0,
            [("a", Value.str "v"), ("upload_timestamp", Value.time 0)]⟩ : CRow).rhash
            = hashAt 0 raw)
  ∧ hashAt 0 [("a", Value.str "v")] ≠ hashAt 1 [("a", Value.str "v")]
  ∧ hashAt 5 [("a", Value.int 1), ("b", Value.int 2)]
      = hashAt 5 [("b", Value.int 2), ("a", Value.int 1)] := by
  refine ⟨?_, ?_, ?_⟩
  · exact C9_timestamp_in_hash.1 [[("a", Value.str "v")]] "x" 0 _ (by decide)
  · exact C9_timestamp_in_hash.2.1 [("a", Value.str "v")] 0 1 (by decide) (by decide)
  · exact C9_timestamp_in_hash.2.2 _ _ 5
      (List.Perm.swap ("b", Value.int 2) ("a", Value.int 1) [])

/-- C10 — verification fails on non-empty tables: `verify_upload` compares
the uploaded batch size against the table's TOTAL row count while
`upload_to_database` appends (`if_exists='append'`); hence every upload
into a table that already holds rows reports failure — even though the
cleaned rows really were appended — and in fact `upload_to_database`
returns failure for every input whenever the prior table content is
non-empty. -/
theorem C10_verification_fails_on_nonempty_table (df : List Rec) (n : String) (t : Nat)
    (store : List StoreRow) (sample : List Nat) (h : store ≠ []) :
    (upload_to_database df n t store sample).1 = false := by
  unfold upload_to_database
  by_cases hdf : df = []
  · simp [hdf]
  · simp only [if_neg hdf]
    by_cases hcl : (validate_and_clean_data df n t).1 = []
    · simp [hcl]
    · simp only [if_neg hcl]
      have hlen : (store ++ (validate_and_clean_data df n t).1.map toStore).length
          ≠ ((validate_and_clean_data df n t).1).length := by
        have hs : 0 < store.length := List.length_pos.mpr h
        simp only [List.length_append, List.length_map]
        omega
      show verify_upload (validate_and_clean_data df n t).1
          (store ++ (validate_and_clean_data df n t).1.map toStore) sample = false
      unfold verify_upload
      rw [if_pos hlen]

theorem C10_verification_fails_on_nonempty_table_witness :
    ([rawStore []] : List StoreRow) ≠ []
  ∧ (upload_to_database [[("a", Value.str "v")]] "x" 0 [rawStore []] []).1 = false :=
  ⟨by decide,
   C10_verification_fails_on_nonempty_table [[("a", Value.str "v")]] "x" 0 [rawStore []] []
     (by decide)⟩

end GenomicDataLake
